import Mathlib

/-!
# net-spawner: key derivation, signing and path parsing

A shallow embedding of `src/ed25519/keys.go` (`GenerateKeyPair`,
`GenerateSignature`, `VerifySignature`, `generateKeyPairFromSeed`) and of the
`-path` handling of `runKeygen` in `src/main.go`.

Conventions of the embedding.

* A Go `string` is a `List Char` (the string is taken to be valid UTF-8, so it
  is the sequence of its code points); a `[]byte` is a `List Byte`.
* A `uint32` / `uint64` is a `Nat`, reduced modulo `2^32` / `2^64` wherever the
  Go arithmetic can wrap.
* A run-time panic (nil dereference, failed type assertion, a library
  `panic`) is the result `none`; a Go `error` return of `runKeygen` is
  `Except.error`.
* The code ignores every `error` it is handed (`x, _ := f()`).  The embedding
  does the same: where the library hands back a value next to the error, that
  value is what flows on.
* The byte-level codecs the repository relies on (standard base-64, Bitcoin
  base-58, the DER containers of `crypto/x509` for Ed25519 keys, `strconv`,
  `strings`) are modelled concretely.  The cryptographic primitives (BIP-39,
  BIP-32, the Ed25519 curve operations) are the fields of `Library`.
-/

namespace NetSpawner

/-! ## Bytes and strings -/

/-- A Go `byte`. -/
abbrev Byte := Fin 256

/-- A Go `string`, as the list of its code points. -/
abbrev GoString := List Char

/-- Conversion `byte(n)` of an unsigned integer: the low eight bits. -/
def toByte (n : Nat) : Byte := ⟨n % 256, Nat.mod_lt _ (by decide)⟩

/-- UTF-8 encoding of one code point. -/
def utf8EncodeChar (c : Char) : List Byte :=
  let n := c.toNat
  if n < 0x80 then [toByte n]
  else if n < 0x800 then [toByte (0xC0 + n / 64), toByte (0x80 + n % 64)]
  else if n < 0x10000 then
    [toByte (0xE0 + n / 4096), toByte (0x80 + n / 64 % 64), toByte (0x80 + n % 64)]
  else
    [toByte (0xF0 + n / 262144), toByte (0x80 + n / 4096 % 64),
     toByte (0x80 + n / 64 % 64), toByte (0x80 + n % 64)]

/-- The conversion `[]byte(s)` of a string. -/
def stringBytes (s : GoString) : List Byte := s.flatMap utf8EncodeChar

/-! ## Unbounded naturals as byte strings (`math/big`) -/

/-- Little-endian digits of `n` in base `base`; `fuel` bounds the number of
divisions (`fuel = n` always suffices for `base ≥ 2`). -/
def digitsLE (base : Nat) : Nat → Nat → List Nat
  | 0, _ => []
  | fuel + 1, n => if n = 0 then [] else (n % base) :: digitsLE base fuel (n / base)

/-- The value of a big-endian byte string: `new(big.Int).SetBytes(b)`. -/
def bytesToNat (b : List Byte) : Nat := b.foldl (fun acc x => acc * 256 + x.val) 0

/-- The minimal big-endian byte string of a natural: `(*big.Int).Bytes()`. -/
def natToBytes (n : Nat) : List Byte := ((digitsLE 256 n n).map toByte).reverse

/-! ## Base-58 (`btcutil/base58`) -/

/-- The Bitcoin base-58 alphabet. -/
def b58Alphabet : List Char :=
  "123456789ABCDEFGHJKLMNPQRSTUVWXYZabcdefghijkmnopqrstuvwxyz".data

/-- The character `alphabet[d]`. -/
def b58Char (d : Nat) : Char := b58Alphabet.getD d '1'

/-- The table `b58[c]`: the digit of a character, `none` for the table's 255. -/
def b58Index (c : Char) : Option Nat :=
  let i := b58Alphabet.indexOf c
  if i < 58 then some i else none

/-- Function `base58.Encode`: the base-58 digits of the big-endian value,
least significant first, then one `'1'` per leading zero byte, then reversed. -/
def b58Encode (b : List Byte) : GoString :=
  let x := bytesToNat b
  let answer := (digitsLE 58 x x).map b58Char
  let zeros := (b.takeWhile (fun i => i = 0)).length
  (answer ++ List.replicate zeros '1').reverse

/-- The accumulation loop of `base58.Decode`: `none` when a character is not
in the alphabet. -/
def b58Accumulate : GoString → Nat → Option Nat
  | [], answer => some answer
  | c :: t, answer =>
    match b58Index c with
    | none => none
    | some d => b58Accumulate t (answer * 58 + d)

/-- Function `base58.Decode`: the empty slice on a character outside the
alphabet, else one zero byte per leading `'1'` followed by the bytes of the
accumulated value. -/
def b58Decode (s : GoString) : List Byte :=
  match b58Accumulate s 0 with
  | none => []
  | some answer =>
    let tmpval := natToBytes answer
    let numZeros := (s.takeWhile (fun c => c = '1')).length
    List.replicate numZeros 0 ++ tmpval

/-! ## Standard base-64 (`encoding/base64`, `StdEncoding`) -/

/-- The standard base-64 alphabet. -/
def b64Alphabet : List Char :=
  "ABCDEFGHIJKLMNOPQRSTUVWXYZabcdefghijklmnopqrstuvwxyz0123456789+/".data

/-- The character `enc.encode[v]`. -/
def b64Char (v : Nat) : Char := b64Alphabet.getD v 'A'

/-- The table `enc.decodeMap[c]`: `none` for the table's 0xff. -/
def b64Index (c : Char) : Option Nat :=
  let i := b64Alphabet.indexOf c
  if i < 64 then some i else none

/-- Function `StdEncoding.EncodeToString`. -/
def EncodeToString : List Byte → GoString
  | [] => []
  | [b0] =>
    let val := b0.val <<< 16
    [b64Char (val >>> 18 &&& 0x3F), b64Char (val >>> 12 &&& 0x3F), '=', '=']
  | [b0, b1] =>
    let val := b0.val <<< 16 ||| b1.val <<< 8
    [b64Char (val >>> 18 &&& 0x3F), b64Char (val >>> 12 &&& 0x3F),
     b64Char (val >>> 6 &&& 0x3F), '=']
  | b0 :: b1 :: b2 :: rest =>
    let val := b0.val <<< 16 ||| b1.val <<< 8 ||| b2.val
    b64Char (val >>> 18 &&& 0x3F) :: b64Char (val >>> 12 &&& 0x3F) ::
      b64Char (val >>> 6 &&& 0x3F) :: b64Char (val &&& 0x3F) :: EncodeToString rest

/-- The bytes one quantum yields (the tail of `decodeQuantum`): the 6-bit
values read so far are packed into 24 bits, and `dlen - 1` bytes are kept. -/
def quantumBytes (dbuf : List Nat) : List Byte :=
  let val := dbuf.getD 0 0 <<< 18 ||| dbuf.getD 1 0 <<< 12 ||| dbuf.getD 2 0 <<< 6 ||| dbuf.getD 3 0
  ([toByte (val >>> 16), toByte (val >>> 8), toByte val]).take (dbuf.length - 1)

/-- A line break, which the decoder skips. -/
def isNewline (c : Char) : Bool := c = '\n' || c = '\r'

/-- Function `(*Encoding).Decode` with `decodeQuantum` inlined: `dbuf` holds
the 6-bit values of the quantum being read, `out` the bytes of the finished
quanta.  The result is the pair (decoded bytes `dbuf[:n]`, whether a
`CorruptInputError` is returned).  On an error the bytes of the quanta
finished before it are still returned; a quantum that ends in correct padding
followed by trailing garbage is itself still written. -/
def decodeLoop : GoString → List Nat → List Byte → List Byte × Bool
  | [], dbuf, out => (out, decide (dbuf ≠ []))
  | c :: src, dbuf, out =>
    match b64Index c with
    | some v =>
      if dbuf.length = 3 then decodeLoop src [] (out ++ quantumBytes (dbuf ++ [v]))
      else decodeLoop src (dbuf ++ [v]) out
    | none =>
      if isNewline c then decodeLoop src dbuf out
      else if c ≠ '=' then (out, true)
      else if dbuf.length < 2 then (out, true)
      else if dbuf.length = 2 then
        match src.dropWhile isNewline with
        | [] => (out, true)
        | c2 :: src2 =>
          if c2 ≠ '=' then (out, true)
          else (out ++ quantumBytes dbuf, decide (src2.dropWhile isNewline ≠ []))
      else (out ++ quantumBytes dbuf, decide (src.dropWhile isNewline ≠ []))

/-- Function `StdEncoding.DecodeString`: the decoded bytes and whether an
error is returned with them. -/
def DecodeString (s : GoString) : List Byte × Bool := decodeLoop s [] []

/-! ## DER containers (`encoding/asn1`, `crypto/x509`) -/

/-- The length octets of a DER element: short form below 128, else the count
of length bytes (flagged with 0x80) and the minimal big-endian length. -/
def derLength (n : Nat) : List Byte :=
  if n < 128 then [toByte n]
  else
    let bs := natToBytes n
    toByte (0x80 ||| bs.length) :: bs

/-- One DER element: tag, length, content. -/
def derTLV (tag : Byte) (content : List Byte) : List Byte :=
  tag :: (derLength content.length ++ content)

/-- The content octets of the object identifier 1.3.101.112
(`oidPublicKeyEd25519`). -/
def oidPublicKeyEd25519 : List Byte := [0x2b, 0x65, 0x70]

/-- The `pkix.AlgorithmIdentifier` of Ed25519: a sequence holding the object
identifier and no parameters. -/
def algorithmEd25519 : List Byte := derTLV 0x30 (derTLV 0x06 oidPublicKeyEd25519)

/-- Function `x509.MarshalPKIXPublicKey` on an `ed25519.PublicKey`: the
sequence of the algorithm identifier and the key as a bit string with no
unused bits. -/
def MarshalPKIXPublicKey (pub : List Byte) : List Byte :=
  derTLV 0x30 (algorithmEd25519 ++ derTLV 0x03 (0x00 :: pub))

/-- Function `x509.MarshalPKCS8PrivateKey` on an `ed25519.PrivateKey`: version
0, the algorithm identifier, and an octet string holding the octet string of
the seed `k.Seed()`, the first 32 bytes of the key. -/
def MarshalPKCS8PrivateKey (priv : List Byte) : List Byte :=
  derTLV 0x30 ([0x02, 0x01, 0x00] ++ algorithmEd25519 ++ derTLV 0x04 (derTLV 0x04 (priv.take 32)))

/-- The long-form length loop of `parseTagAndLength`: `none` when the length
would overflow or has superfluous leading zeros. -/
def readLongLength : List Byte → Nat → Option Nat
  | [], length => some length
  | b :: bs, length =>
    if length ≥ 2 ^ 23 then none
    else
      let length := length <<< 8 ||| b.val
      if length = 0 then none else readLongLength bs length

/-- Reads one DER element off the front of `bytes` (`parseTagAndLength`
followed by the truncation check): the tag octet, the content and what
follows the element.  Tags in the high-tag-number form are not read (none of
the expected tags has that form). -/
def readTLV (bytes : List Byte) : Option (Byte × List Byte × List Byte) :=
  match bytes with
  | tag :: l :: rest =>
    if tag.val &&& 0x1f = 0x1f then none
    else if l.val &&& 0x80 = 0 then
      if rest.length < l.val then none
      else some (tag, rest.take l.val, rest.drop l.val)
    else
      let numBytes := l.val &&& 0x7f
      if numBytes = 0 then none
      else if rest.length < numBytes then none
      else
        match readLongLength (rest.take numBytes) 0 with
        | none => none
        | some length =>
          let rest := rest.drop numBytes
          if length < 0x80 then none
          else if rest.length < length then none
          else some (tag, rest.take length, rest.drop length)
  | _ => none

/-- Function `asn1.BitString.RightAlign` for a bit string with `padding`
unused bits. -/
def RightAlign (bytes : List Byte) (padding : Nat) : List Byte :=
  if padding = 0 ∨ bytes = [] then bytes
  else
    (List.range bytes.length).map (fun i =>
      if i = 0 then toByte ((bytes.getD 0 0).val >>> padding)
      else toByte (((bytes.getD (i - 1) 0).val <<< (8 - padding)) % 256 |||
                   (bytes.getD i 0).val >>> padding))

/-- The check of `parseBitString`, then `RightAlign`: the first content octet
counts the unused bits, which must be at most 7 and zero in the last octet. -/
def parseBitString (content : List Byte) : Option (List Byte) :=
  match content with
  | [] => none
  | p :: bytes =>
    if p.val > 7 ∨ (bytes = [] ∧ p.val > 0) ∨
        (content.getLastD 0).val &&& (1 <<< p.val - 1) ≠ 0 then none
    else some (RightAlign bytes p.val)

/-- Function `x509.ParsePKIXPublicKey`, as far as the caller can tell the
results apart: `some key` when it returns an `ed25519.PublicKey`, `none` when
it returns an error or a key of another algorithm (the caller's type
assertion fails on both).  Bytes after the bit string inside the outer
sequence are ignored, bytes after the outer sequence are an error. -/
def ParsePKIXPublicKey (der : List Byte) : Option (List Byte) :=
  match readTLV der with
  | none => none
  | some (tag, body, rest) =>
    if tag ≠ 0x30 ∨ rest ≠ [] then none
    else
      match readTLV body with
      | none => none
      | some (algTag, alg, body2) =>
        if algTag ≠ 0x30 ∨ alg ≠ derTLV 0x06 oidPublicKeyEd25519 then none
        else
          match readTLV body2 with
          | none => none
          | some (bitsTag, bits, _) =>
            if bitsTag ≠ 0x03 then none
            else
              match parseBitString bits with
              | none => none
              | some key => if key.length ≠ 32 then none else some key

/-- The check of `parseInt64` on the content of an INTEGER: not empty,
minimally encoded, at most eight octets. -/
def validInteger (content : List Byte) : Bool :=
  match content with
  | [] => false
  | [_] => true
  | b0 :: b1 :: _ =>
    !((b0.val = 0 && b1.val &&& 0x80 = 0) || (b0.val = 0xff && b1.val &&& 0x80 = 0x80)) &&
      decide (content.length ≤ 8)

/-- The seed held by a PKCS#8 container of an Ed25519 key, as
`x509.ParsePKCS8PrivateKey` extracts it before it calls
`ed25519.NewKeyFromSeed`: version (any integer), the Ed25519 algorithm
identifier without parameters, an octet string holding an octet string of 32
bytes.  Trailing bytes after an element are ignored, as `asn1.Unmarshal`
hands them back as the rest.  The result is `none` when the library returns
an error or a key of another algorithm. -/
def pkcs8Seed (der : List Byte) : Option (List Byte) :=
  match readTLV der with
  | none => none
  | some (tag, body, _) =>
    if tag ≠ 0x30 then none
    else
      match readTLV body with
      | none => none
      | some (verTag, ver, body2) =>
        if verTag ≠ 0x02 ∨ validInteger ver = false then none
        else
          match readTLV body2 with
          | none => none
          | some (algTag, alg, body3) =>
            if algTag ≠ 0x30 ∨ alg ≠ derTLV 0x06 oidPublicKeyEd25519 then none
            else
              match readTLV body3 with
              | none => none
              | some (keyTag, key, _) =>
                if keyTag ≠ 0x04 then none
                else
                  match readTLV key with
                  | none => none
                  | some (seedTag, seed, _) =>
                    if seedTag ≠ 0x04 ∨ seed.length ≠ 32 then none else some seed

/-! ## The cryptographic libraries -/

/-- A `*bip32.Key`: the 32 bytes of key material and the chain code. -/
structure Bip32Key where
  /-- Field `Key`. -/
  Key : List Byte
  /-- Field `ChainCode`. -/
  ChainCode : List Byte
deriving DecidableEq, Repr

/-- The cryptographic primitives of `go-bip39`, `go-bip32` and
`crypto/ed25519`, which the repository calls and does not implement. -/
structure Library where
  /-- Function `bip39.NewMnemonic` on the bytes `bip39.NewEntropy(256)` read
  from the entropy source. -/
  NewMnemonic : List Byte → GoString
  /-- Function `bip39.NewSeed(mnemonic, password)`. -/
  NewSeed : GoString → GoString → List Byte
  /-- Function `bip32.NewMasterKey`; `none` is the nil key returned with an
  error. -/
  NewMasterKey : List Byte → Option Bip32Key
  /-- Method `(*bip32.Key).NewChildKey(childIdx)`; `none` is the nil key
  returned with an error. -/
  NewChildKey : Bip32Key → Nat → Option Bip32Key
  /-- The Ed25519 public key of a 32-byte seed. -/
  publicKey : List Byte → List Byte
  /-- Function `ed25519.Sign(privateKey, message)`. -/
  sign : List Byte → List Byte → List Byte
  /-- The curve check of `ed25519.Verify(publicKey, message, sig)`, reached
  once the lengths have been checked. -/
  verify : List Byte → List Byte → List Byte → Bool
  /-- An Ed25519 public key has `ed25519.PublicKeySize` bytes. -/
  publicKey_size : ∀ seed, seed.length = 32 → (publicKey seed).length = 32

/-- Function `ed25519.NewKeyFromSeed`: panics unless the seed has 32 bytes;
the private key is the seed followed by the public key. -/
def NewKeyFromSeed (L : Library) (seed : List Byte) : Option (List Byte) :=
  if seed.length ≠ 32 then none else some (seed ++ L.publicKey seed)

/-- Method `ed25519.PrivateKey.Sign` with `crypto.Hash(0)`: panics unless the
private key has 64 bytes; the random source is ignored. -/
def ed25519Sign (L : Library) (priv message : List Byte) : Option (List Byte) :=
  if priv.length ≠ 64 then none else some (L.sign priv message)

/-- Function `ed25519.Verify`: panics unless the public key has 32 bytes;
false when the signature does not have 64 bytes or the top three bits of its
last byte are not clear; else the curve check. -/
def ed25519Verify (L : Library) (publicKey message sig : List Byte) : Option Bool :=
  if publicKey.length ≠ 32 then none
  else if sig.length ≠ 64 ∨ (sig.getD 63 0).val &&& 224 ≠ 0 then some false
  else some (L.verify publicKey message sig)

/-- Function `x509.ParsePKCS8PrivateKey`, as far as the caller can tell the
results apart: `some key` when it returns an `ed25519.PrivateKey`, `none` when
it returns an error or a key of another algorithm. -/
def ParsePKCS8PrivateKey (L : Library) (der : List Byte) : Option (List Byte) :=
  match pkcs8Seed der with
  | none => none
  | some seed => NewKeyFromSeed L seed

/-! ## `src/ed25519/keys.go` -/

/-- The exported key box. -/
structure Ed25519Box where
  /-- Field `mnemonic`. -/
  Mnemonic : GoString
  /-- Field `bip44Path`. -/
  Bip44Path : List Nat
  /-- Field `publicKey`. -/
  Pub : GoString
  /-- Field `privateKey`. -/
  Prv : GoString
deriving DecidableEq, Repr

/-- Constant `bip32.FirstHardenedChild`. -/
def FirstHardenedChild : Nat := 0x80000000

/-- The argument of `NewChildKey` for a path component:
`bip32.FirstHardenedChild + pathPart` in `uint32` arithmetic. -/
def childIndex (pathPart : Nat) : Nat := (FirstHardenedChild + pathPart) % 2 ^ 32

/-- The path the derivation loop walks: the default when the argument is
empty. -/
def effectivePath (bip44DerivePath : List Nat) : List Nat :=
  if bip44DerivePath.length = 0 then [44, 7337, 0, 0] else bip44DerivePath

/-- One step of the derivation loop: `childKey, _ = childKey.NewChildKey(...)`;
the call on a nil key panics. -/
def deriveStep (L : Library) (childKey : Option Bip32Key) (pathPart : Nat) : Option Bip32Key :=
  match childKey with
  | none => none
  | some k => L.NewChildKey k (childIndex pathPart)

/-- The child indices the derivation loop of `GenerateKeyPair` hands to
`NewChildKey`, in order, for the given path argument. -/
def derivationIndices (bip44DerivePath : List Nat) : List Nat :=
  (effectivePath bip44DerivePath).map childIndex

/-- Function `generateKeyPairFromSeed`: the public and the private key. -/
def generateKeyPairFromSeed (L : Library) (seed : List Byte) :
    Option (List Byte × List Byte) :=
  match NewKeyFromSeed L seed with
  | none => none
  | some privateKey => some (privateKey.drop 32, privateKey)

/-- The 12 bytes `VerifySignature` puts in front of the decoded public key. -/
def asnHeader : List Byte :=
  [0x30, 0x2a, 0x30, 0x05, 0x06, 0x03, 0x2b, 0x65, 0x70, 0x03, 0x21, 0x00]

/-- Function `GenerateKeyPair`.  `entropy` is what the entropy source yields
on this call; it is read only when `mnemonic` is empty. -/
def GenerateKeyPair (L : Library) (entropy : List Byte)
    (mnemonic mnemonicPassword : GoString) (bip44DerivePath : List Nat) : Option Ed25519Box :=
  let mnemonic := if mnemonic = [] then L.NewMnemonic entropy else mnemonic
  let seed := L.NewSeed mnemonic mnemonicPassword
  let masterPrivateKey := L.NewMasterKey seed
  let bip44DerivePath := effectivePath bip44DerivePath
  let childKey := bip44DerivePath.foldl (deriveStep L) masterPrivateKey
  match childKey with
  | none => none
  | some childKey =>
    match generateKeyPairFromSeed L childKey.Key with
    | none => none
    | some (publicKeyObject, privateKeyObject) =>
      let pubKeyBytes := MarshalPKIXPublicKey publicKeyObject
      let privKeyBytes := MarshalPKCS8PrivateKey privateKeyObject
      if pubKeyBytes.length < 12 then none
      else some
        { Mnemonic := mnemonic, Bip44Path := bip44DerivePath,
          Pub := b58Encode (pubKeyBytes.drop 12), Prv := EncodeToString privKeyBytes }

/-- Function `GenerateSignature`. -/
def GenerateSignature (L : Library) (privateKeyAsBase64 msg : GoString) : Option GoString :=
  let privateKeyAsBytes := (DecodeString privateKeyAsBase64).1
  match ParsePKCS8PrivateKey L privateKeyAsBytes with
  | none => none
  | some finalPrivateKey =>
    let msgAsBytes := stringBytes msg
    match ed25519Sign L finalPrivateKey msgAsBytes with
    | none => none
    | some signature => some (EncodeToString signature)

/-- Function `VerifySignature`. -/
def VerifySignature (L : Library) (stringMessage base58PubKey base64Signature : GoString) :
    Option Bool :=
  let msgAsBytes := stringBytes stringMessage
  let publicKeyAsBytesWithNoAsnHeader := b58Decode base58PubKey
  let pubKeyAsBytesWithAsnHeader := asnHeader ++ publicKeyAsBytesWithNoAsnHeader
  match ParsePKIXPublicKey pubKeyAsBytesWithAsnHeader with
  | none => none
  | some finalPubKey =>
    let signature := (DecodeString base64Signature).1
    ed25519Verify L finalPubKey msgAsBytes signature

/-! ## `src/main.go`: the `-path` flag of `keygen` -/

/-- Function `unicode.IsSpace`. -/
def isSpace (c : Char) : Bool :=
  let r := c.toNat
  (9 ≤ r && r ≤ 13) || r = 0x20 || r = 0x85 || r = 0xA0 || r = 0x1680 ||
    (0x2000 ≤ r && r ≤ 0x200a) || r = 0x2028 || r = 0x2029 || r = 0x202f ||
    r = 0x205f || r = 0x3000

/-- Function `strings.TrimSpace`: the string without its leading and trailing
white space. -/
def TrimSpace (s : GoString) : GoString :=
  ((s.dropWhile isSpace).reverse.dropWhile isSpace).reverse

/-- The two errors of `strconv.ParseUint`. -/
inductive NumError where
  /-- Error `strconv.ErrSyntax`. -/
  | ErrSyntax
  /-- Error `strconv.ErrRange`. -/
  | ErrRange
deriving DecidableEq, Repr

/-- The digit value `ParseUint` gives a byte, `none` for the default case of
its switch. -/
def digitValue (c : Char) : Option Nat :=
  let b := c.toNat
  if 48 ≤ b ∧ b ≤ 57 then some (b - 48)
  else if b < 128 ∧ 97 ≤ (b ||| 0x20) ∧ (b ||| 0x20) ≤ 122 then some ((b ||| 0x20) - 97 + 10)
  else none

/-- The digit loop of `strconv.ParseUint` over the bytes of the string, in
`uint64` arithmetic. -/
def parseUintLoop (base maxVal : Nat) : GoString → Nat → Except NumError Nat
  | [], n => .ok n
  | c :: cs, n =>
    match digitValue c with
    | none => .error .ErrSyntax
    | some d =>
      if d ≥ base then .error .ErrSyntax
      else if n ≥ (2 ^ 64 - 1) / base + 1 then .error .ErrRange
      else
        let n := (n * base) % 2 ^ 64
        let n1 := (n + d) % 2 ^ 64
        if n1 < n ∨ n1 > maxVal then .error .ErrRange
        else parseUintLoop base maxVal cs n1

/-- Function `strconv.ParseUint(s, base, bitSize)` for an explicit base
(2 to 36) and bit size (1 to 64). -/
def ParseUint (s : GoString) (base bitSize : Nat) : Except NumError Nat :=
  if s = [] then .error .ErrSyntax
  else parseUintLoop base (2 ^ bitSize - 1) s 0

/-- The error `runKeygen` returns for a path component that does not parse:
`invalid BIP44 path component %q: %w`, with the component and the cause. -/
inductive KeygenError where
  /-- The offending component and the `strconv` error it raised. -/
  | invalidComponent (part : GoString) (cause : NumError)
deriving DecidableEq, Repr

deriving instance DecidableEq for Except

/-- The loop of `runKeygen` over the parts of the path; `bip44Path` is the
slice built so far. -/
def parseParts : List GoString → List Nat → Except KeygenError (List Nat)
  | [], bip44Path => .ok bip44Path
  | part :: parts, bip44Path =>
    let part := TrimSpace part
    if part = [] then parseParts parts bip44Path
    else
      match ParseUint part 10 32 with
      | .error err => .error (.invalidComponent part err)
      | .ok val => parseParts parts (bip44Path ++ [val % 2 ^ 32])

/-- The path `runKeygen` computes from the value of the `-path` flag. -/
def parsePath (derivationPath : GoString) : Except KeygenError (List Nat) :=
  if TrimSpace derivationPath ≠ [] then parseParts (derivationPath.splitOn '/') []
  else .ok []

/-- Function `runKeygen`, from the parsed flag values on: the error it
returns, or the key box it hands to the JSON encoder (`none` when
`GenerateKeyPair` panics). -/
def runKeygen (L : Library) (entropy : List Byte) (mnemonic passphrase derivationPath : GoString) :
    Except KeygenError (Option Ed25519Box) :=
  match parsePath derivationPath with
  | .error err => .error err
  | .ok bip44Path => .ok (GenerateKeyPair L entropy mnemonic passphrase bip44Path)

/-! ## A small executable library

The primitives of `Library` instantiated by simple total functions, to run
the pipeline on concrete inputs.  It is not the real cryptography: the
"signature" of a message under a key is the public key followed by a
32-byte digest-like tag of the message, and verification recomputes it. -/

/-- The first `n` bytes of `b`, padded with zero bytes. -/
def fitTo (n : Nat) (b : List Byte) : List Byte := (b ++ List.replicate n 0).take n

/-- The tag of a message in `demoLibrary`: 32 bytes, each below 32. -/
def demoTag (message : List Byte) : List Byte :=
  fitTo 32 (message.map (fun b => toByte (b.val % 32)))

/-- A small executable instance of `Library`. -/
def demoLibrary : Library where
  NewMnemonic := fun entropy => entropy.map (fun b => Char.ofNat (97 + b.val % 26))
  NewSeed := fun mnemonic password => fitTo 64 (stringBytes mnemonic ++ stringBytes password)
  NewMasterKey := fun seed => some ⟨seed.take 32, seed.drop 32⟩
  NewChildKey := fun k idx => some ⟨k.Key.map (fun b => toByte (b.val + idx + 1)), k.ChainCode⟩
  publicKey := fun seed => fitTo 32 (seed.map (fun b => toByte (b.val + 1)))
  sign := fun priv message => priv.drop 32 ++ demoTag message
  verify := fun pub message sig => decide (sig = pub ++ demoTag message)
  publicKey_size := by intro seed _; simp [fitTo]

/-! ## Vocabulary of the claims -/

/-- The library contract the sign/verify round trip rests on: a signature made
with the private key of a 32-byte seed verifies under the public key of that
seed (RFC 8032 correctness of Ed25519). -/
def SignVerifyCorrect (L : Library) : Prop :=
  ∀ seed message : List Byte, seed.length = 32 →
    ed25519Verify L (L.publicKey seed) message (L.sign (seed ++ L.publicKey seed) message)
      = some true

/-- An ASCII decimal digit. -/
def isDigitChar (c : Char) : Bool := decide (48 ≤ c.toNat ∧ c.toNat ≤ 57)

/-- An unsigned decimal integer: a non-empty string of ASCII decimal digits. -/
def isDecimal (t : GoString) : Bool := decide (t ≠ []) && t.all isDigitChar

/-- The decimal value of a string of digits read from `n` on. -/
def decimalFrom (n : Nat) (t : GoString) : Nat := t.foldl (fun n c => n * 10 + (c.toNat - 48)) n

/-- The numeric value of a string of decimal digits. -/
def decimalValue (t : GoString) : Nat := decimalFrom 0 t

/-- An unsigned decimal integer that fits in 32 bits. -/
def fitsUint32 (t : GoString) : Bool := isDecimal t && decide (decimalValue t < 2 ^ 32)

/-- The non-empty components of a path string: the pieces between the `/`
separators, each trimmed of white space, without the empty ones. -/
def pathComponents (s : GoString) : List GoString :=
  ((s.splitOn '/').map TrimSpace).filter (fun t => decide (t ≠ []))

/-- The decimal form of a natural number. -/
def decimalForm (n : Nat) : GoString :=
  if n = 0 then ['0'] else (digitsLE 10 n n).reverse.map (fun d => Char.ofNat (48 + d))

/-- The decimal forms of the numbers of a list, joined with `/`. -/
def joinPath (l : List Nat) : GoString := ['/'].intercalate (l.map decimalForm)

/-- The first component of a path string that is non-empty after trimming and
is not an unsigned decimal integer. -/
def firstNonDecimal (s : GoString) : Option GoString :=
  (pathComponents s).find? (fun t => !isDecimal t)

/-- The first component of a path string that is non-empty after trimming and
is not an unsigned decimal integer that fits in 32 bits. -/
def firstOffending (s : GoString) : Option GoString :=
  (pathComponents s).find? (fun t => !fitsUint32 t)

/-! # Theorems -/

/-! ## Naturals and byte strings -/

theorem digitsLE_eq_digits (base : Nat) (hb : 2 ≤ base) :
    ∀ (fuel n : Nat), n ≤ fuel → digitsLE base fuel n = Nat.digits base n := by
  intro fuel
  induction fuel with
  | zero =>
    intro n hn
    have : n = 0 := by omega
    subst this
    simp [digitsLE]
  | succ f ih =>
    intro n hn
    by_cases h0 : n = 0
    · subst h0; simp [digitsLE]
    · have hlt : n / base < n := Nat.div_lt_self (by omega) (by omega)
      have hpos : 0 < n := by omega
      rw [digitsLE, if_neg h0, ih (n / base) (by omega)]
      rw [Nat.digits_def' (by omega) hpos]

theorem toByte_val (b : Byte) : toByte b.val = b := by
  apply Fin.ext
  simp [toByte, Nat.mod_eq_of_lt b.isLt]

theorem bytesToNat_foldl (b : List Byte) (a : Nat) :
    b.foldl (fun acc x => acc * 256 + x.val) a
      = a * 256 ^ b.length + Nat.ofDigits 256 (b.reverse.map Fin.val) := by
  induction b generalizing a with
  | nil => simp
  | cons x xs ih =>
    simp only [List.foldl_cons, List.length_cons, List.reverse_cons, List.map_append,
      List.map_cons, List.map_nil]
    rw [ih, Nat.ofDigits_append]
    simp only [List.length_map, List.length_reverse, Nat.ofDigits_singleton]
    ring

theorem bytesToNat_eq (b : List Byte) :
    bytesToNat b = Nat.ofDigits 256 (b.reverse.map Fin.val) := by
  simp [bytesToNat, bytesToNat_foldl]

theorem bytesToNat_dropWhile (b : List Byte) :
    bytesToNat (b.dropWhile (fun i => i = 0)) = bytesToNat b := by
  induction b with
  | nil => rfl
  | cons x xs ih =>
    by_cases hx : x = 0
    · subst hx
      simp only [List.dropWhile_cons, decide_True, if_true]
      rw [ih]
      simp [bytesToNat]
    · simp [List.dropWhile_cons, hx]

theorem natToBytes_bytesToNat_of_head (b : List Byte) (h : ∀ x ∈ b.head?, x ≠ 0) :
    natToBytes (bytesToNat b) = b := by
  unfold natToBytes
  rw [digitsLE_eq_digits 256 (by decide) _ _ (le_refl _), bytesToNat_eq,
    Nat.digits_ofDigits 256 (by decide)]
  · simp [List.map_map, Function.comp_def, toByte_val]
  · intro l hl
    simp only [List.mem_map, List.mem_reverse] at hl
    obtain ⟨x, _, rfl⟩ := hl
    exact x.isLt
  · intro hne
    cases b with
    | nil => simp at hne
    | cons x xs =>
      have hx : x ≠ 0 := h x (by simp)
      simp only [List.reverse_cons, List.map_append, List.map_cons, List.map_nil]
      rw [List.getLast_append_singleton]
      intro hv
      exact hx (Fin.ext hv)

theorem natToBytes_bytesToNat (b : List Byte) :
    natToBytes (bytesToNat b) = b.dropWhile (fun i => i = 0) := by
  rw [← bytesToNat_dropWhile]
  apply natToBytes_bytesToNat_of_head
  intro x hx
  have := List.head?_dropWhile_not (fun i : Byte => decide (i = 0)) b
  rw [Option.mem_def] at hx
  rw [hx] at this
  simpa using this

/-! ## Base-58 round trip -/

theorem b58Index_b58Char : ∀ d : Fin 58, b58Index (b58Char d.val) = some d.val := by decide

theorem b58Char_eq_one : ∀ d : Fin 58, b58Char d.val = '1' → d.val = 0 := by decide

theorem b58Accumulate_map (ds : List Nat) (h : ∀ d ∈ ds, d < 58) (a : Nat) :
    b58Accumulate (ds.map b58Char) a = some (ds.foldl (fun acc d => acc * 58 + d) a) := by
  induction ds generalizing a with
  | nil => rfl
  | cons d ds ih =>
    have hd : d < 58 := h d (by simp)
    have := b58Index_b58Char ⟨d, hd⟩
    simp only [] at this
    simp only [List.map_cons, b58Accumulate, this, List.foldl_cons]
    exact ih (fun x hx => h x (by simp [hx])) _

theorem foldl58_eq (ds : List Nat) (a : Nat) :
    ds.foldl (fun acc d => acc * 58 + d) a = a * 58 ^ ds.length + Nat.ofDigits 58 ds.reverse := by
  induction ds generalizing a with
  | nil => simp
  | cons x xs ih =>
    simp only [List.foldl_cons, List.length_cons, List.reverse_cons]
    rw [ih, Nat.ofDigits_append]
    simp only [List.length_reverse, Nat.ofDigits_singleton]
    ring

theorem ofDigits_append_zeros (b : Nat) (ds : List Nat) (z : Nat) :
    Nat.ofDigits b (ds ++ List.replicate z 0) = Nat.ofDigits b ds := by
  rw [Nat.ofDigits_append]
  have : Nat.ofDigits b (List.replicate z 0) = 0 := by
    induction z with
    | zero => simp
    | succ n ih => simp [List.replicate_succ, Nat.ofDigits_cons, ih]
  simp [this]

theorem takeWhile_zero_eq_replicate (b : List Byte) :
    b.takeWhile (fun i => i = 0) = List.replicate (b.takeWhile (fun i => i = 0)).length 0 := by
  rw [List.eq_replicate_iff]
  refine ⟨rfl, ?_⟩
  intro x hx
  simpa using List.mem_takeWhile_imp hx

theorem b58Decode_b58Encode (b : List Byte) : b58Decode (b58Encode b) = b := by
  have hdig : digitsLE 58 (bytesToNat b) (bytesToNat b) = Nat.digits 58 (bytesToNat b) :=
    digitsLE_eq_digits 58 (by decide) _ _ (le_refl _)
  set x := bytesToNat b with hx
  set z := (b.takeWhile (fun i => i = 0)).length with hz
  have henc : b58Encode b = (List.replicate z 0 ++ (Nat.digits 58 x).reverse).map b58Char := by
    simp only [b58Encode, ← hx, ← hz, hdig, List.reverse_append, List.reverse_replicate,
      List.map_append, List.map_reverse, List.map_replicate]
    rfl
  have hlt : ∀ d ∈ List.replicate z 0 ++ (Nat.digits 58 x).reverse, d < 58 := by
    intro d hd
    rw [List.mem_append] at hd
    rcases hd with hd | hd
    · rw [List.mem_replicate] at hd; omega
    · exact Nat.digits_lt_base (by decide) (List.mem_reverse.mp hd)
  have hacc : b58Accumulate (b58Encode b) 0 = some x := by
    rw [henc, b58Accumulate_map _ hlt, foldl58_eq]
    simp only [Nat.zero_mul, Nat.zero_add, List.reverse_append, List.reverse_reverse,
      List.reverse_replicate]
    rw [ofDigits_append_zeros, Nat.ofDigits_digits]
  have hones : (b58Encode b).takeWhile (fun c => c = '1') = List.replicate z '1' := by
    have h1 : b58Encode b = List.replicate z '1' ++ (Nat.digits 58 x).reverse.map b58Char := by
      rw [henc, List.map_append, List.map_replicate]; rfl
    rw [h1]
    have hall : ∀ c ∈ List.replicate z '1', (fun c => decide (c = '1')) c = true := by
      intro c hc
      rw [List.mem_replicate] at hc
      simp [hc.2]
    rw [List.takeWhile_append_of_pos hall]
    have htail : ((Nat.digits 58 x).reverse.map b58Char).takeWhile (fun c => c = '1') = [] := by
      by_cases hx0 : x = 0
      · simp [hx0]
      · have hne : Nat.digits 58 x ≠ [] := Nat.digits_ne_nil_iff_ne_zero.mpr hx0
        have hlast := Nat.getLast_digit_ne_zero 58 hx0
        obtain ⟨ds, d, hds⟩ : ∃ ds d, Nat.digits 58 x = ds ++ [d] :=
          ⟨_, _, (List.dropLast_append_getLast hne).symm⟩
        have hd : d ≠ 0 := by
          have : (Nat.digits 58 x).getLast hne = d := by simp [hds]
          rw [← this]; exact hlast
        have hd58 : d < 58 := Nat.digits_lt_base (by decide) (by rw [hds]; simp)
        rw [hds]
        simp only [List.reverse_append, List.reverse_cons, List.reverse_nil, List.nil_append,
          List.singleton_append, List.map_cons, List.takeWhile_cons]
        have : b58Char d ≠ '1' := fun h => hd (b58Char_eq_one ⟨d, hd58⟩ h)
        simp [this]
    rw [htail, List.append_nil]
  unfold b58Decode
  rw [hacc]
  simp only [hones, List.length_replicate]
  rw [hx, natToBytes_bytesToNat, hz]
  conv_rhs => rw [← List.takeWhile_append_dropWhile (fun i => decide (i = 0)) b]
  rw [← takeWhile_zero_eq_replicate]

/-! ## Base-64 round trip -/

theorem or_eq_add_of_dvd (i a b : Nat) (ha : 2 ^ i ∣ a) (hb : b < 2 ^ i) : a ||| b = a + b := by
  obtain ⟨k, rfl⟩ := ha
  exact (Nat.mul_add_lt_is_or hb k).symm

theorem and63 (x : Nat) : x &&& 0x3F = x % 64 := Nat.and_pow_two_sub_one_eq_mod x 6

theorem pack2 (b0 b1 : Nat) (h1 : b1 < 256) :
    b0 <<< 16 ||| b1 <<< 8 = b0 * 65536 + b1 * 256 := by
  rw [Nat.shiftLeft_eq, Nat.shiftLeft_eq]
  rw [or_eq_add_of_dvd 16 _ _ (Dvd.intro_left _ rfl) (by omega)]
  norm_num

theorem pack3 (b0 b1 b2 : Nat) (h1 : b1 < 256) (h2 : b2 < 256) :
    b0 <<< 16 ||| b1 <<< 8 ||| b2 = b0 * 65536 + b1 * 256 + b2 := by
  rw [pack2 _ _ h1, or_eq_add_of_dvd 8 _ _ (by omega) (by omega)]

theorem pack4two (s0 s1 : Nat) (h1 : s1 < 64) :
    s0 <<< 18 ||| s1 <<< 12 = s0 * 262144 + s1 * 4096 := by
  rw [Nat.shiftLeft_eq, Nat.shiftLeft_eq]
  rw [or_eq_add_of_dvd 18 _ _ (Dvd.intro_left _ rfl) (by omega)]
  norm_num

theorem pack4three (s0 s1 s2 : Nat) (h1 : s1 < 64) (h2 : s2 < 64) :
    s0 <<< 18 ||| s1 <<< 12 ||| s2 <<< 6 = s0 * 262144 + s1 * 4096 + s2 * 64 := by
  rw [pack4two _ _ h1, Nat.shiftLeft_eq]
  rw [or_eq_add_of_dvd 12 _ _ (by omega) (by omega)]

theorem pack4 (s0 s1 s2 s3 : Nat) (h1 : s1 < 64) (h2 : s2 < 64) (h3 : s3 < 64) :
    s0 <<< 18 ||| s1 <<< 12 ||| s2 <<< 6 ||| s3 = s0 * 262144 + s1 * 4096 + s2 * 64 + s3 := by
  rw [pack4three _ _ _ h1 h2, or_eq_add_of_dvd 6 _ _ (by omega) (by omega)]

theorem quantumBytes_three (b0 b1 b2 : Byte) :
    quantumBytes
      [(b0.val <<< 16 ||| b1.val <<< 8 ||| b2.val) >>> 18 &&& 0x3F,
       (b0.val <<< 16 ||| b1.val <<< 8 ||| b2.val) >>> 12 &&& 0x3F,
       (b0.val <<< 16 ||| b1.val <<< 8 ||| b2.val) >>> 6 &&& 0x3F,
       (b0.val <<< 16 ||| b1.val <<< 8 ||| b2.val) &&& 0x3F] = [b0, b1, b2] := by
  have h0 := b0.isLt
  have h1 := b1.isLt
  have h2 := b2.isLt
  rw [pack3 _ _ _ h1 h2]
  simp only [quantumBytes, and63, Nat.shiftRight_eq_div_pow, List.getD_cons_zero,
    List.getD_cons_succ, List.length_cons, List.length_nil]
  rw [pack4 _ _ _ _ (Nat.mod_lt _ (by decide)) (Nat.mod_lt _ (by decide))
    (Nat.mod_lt _ (by decide))]
  simp only [toByte, Nat.shiftRight_eq_div_pow]
  simp only [List.take, List.cons.injEq, and_true]
  refine ⟨Fin.ext ?_, Fin.ext ?_, Fin.ext ?_⟩ <;> simp only [] <;> omega

theorem quantumBytes_two (b0 b1 : Byte) :
    quantumBytes
      [(b0.val <<< 16 ||| b1.val <<< 8) >>> 18 &&& 0x3F,
       (b0.val <<< 16 ||| b1.val <<< 8) >>> 12 &&& 0x3F,
       (b0.val <<< 16 ||| b1.val <<< 8) >>> 6 &&& 0x3F] = [b0, b1] := by
  have h0 := b0.isLt
  have h1 := b1.isLt
  rw [pack2 _ _ h1]
  simp only [quantumBytes, and63, Nat.shiftRight_eq_div_pow, List.getD_cons_zero,
    List.getD_cons_succ, List.length_cons, List.length_nil, List.getD_nil, Nat.or_zero]
  rw [pack4three _ _ _ (Nat.mod_lt _ (by decide)) (Nat.mod_lt _ (by decide))]
  simp only [toByte, Nat.shiftRight_eq_div_pow]
  simp only [List.take, List.cons.injEq, and_true]
  refine ⟨Fin.ext ?_, Fin.ext ?_⟩ <;> simp only [] <;> omega

theorem quantumBytes_one (b0 : Byte) :
    quantumBytes [(b0.val <<< 16) >>> 18 &&& 0x3F, (b0.val <<< 16) >>> 12 &&& 0x3F] = [b0] := by
  have h0 := b0.isLt
  have e : b0.val <<< 16 = b0.val * 65536 := by rw [Nat.shiftLeft_eq]
  rw [e]
  simp only [quantumBytes, and63, Nat.shiftRight_eq_div_pow, List.getD_cons_zero,
    List.getD_cons_succ, List.length_cons, List.length_nil, List.getD_nil, Nat.or_zero,
    Nat.zero_shiftLeft]
  rw [pack4two _ _ (Nat.mod_lt _ (by decide))]
  simp only [toByte, Nat.shiftRight_eq_div_pow]
  simp only [List.take, List.cons.injEq, and_true]
  refine Fin.ext ?_
  simp only []
  omega

theorem b64Index_b64Char : ∀ v : Fin 64, b64Index (b64Char v.val) = some v.val := by decide

theorem b64Index_and63 (x : Nat) : b64Index (b64Char (x &&& 0x3F)) = some (x &&& 0x3F) := by
  have h : x &&& 0x3F < 64 := by rw [and63]; exact Nat.mod_lt _ (by decide)
  exact b64Index_b64Char ⟨_, h⟩

theorem b64Index_pad : b64Index '=' = none := by decide

theorem decodeLoop_encode (bs : List Byte) :
    ∀ out, decodeLoop (EncodeToString bs) [] out = (out ++ bs, false) := by
  induction bs using EncodeToString.induct with
  | case1 => intro out; simp [EncodeToString, decodeLoop]
  | case2 b0 =>
    intro out
    simp only [EncodeToString, decodeLoop, b64Index_and63, b64Index_pad, List.length_nil,
      List.length_cons, List.nil_append, List.cons_append]
    simp [isNewline, quantumBytes_one]
  | case3 b0 b1 =>
    intro out
    simp only [EncodeToString, decodeLoop, b64Index_and63, b64Index_pad, List.length_nil,
      List.length_cons, List.nil_append, List.cons_append]
    simp [isNewline, quantumBytes_two]
  | case4 b0 b1 b2 rest ih =>
    intro out
    simp only [EncodeToString, decodeLoop, b64Index_and63, List.length_nil,
      List.length_cons, List.nil_append, List.cons_append]
    simp only [Nat.reduceAdd, Nat.reduceEqDiff, if_true, if_false, OfNat.ofNat_ne_zero,
      quantumBytes_three, ih]
    simp

/-- Decoding an encoded byte string gives the bytes back, with no error. -/
theorem DecodeString_EncodeToString (bs : List Byte) :
    DecodeString (EncodeToString bs) = (bs, false) := by
  simpa [DecodeString] using decodeLoop_encode bs []

/-! ## DER containers: reading back what was written -/

theorem and_0x80_of_lt : ∀ n : Fin 128, n.val &&& 0x80 = 0 := by decide

theorem derLength_short (n : Nat) (h : n < 128) : derLength n = [toByte n] := by
  simp [derLength, h]

theorem readTLV_derTLV (tag : Byte) (content rest : List Byte)
    (ht : tag.val &&& 0x1f ≠ 0x1f) (hn : content.length < 128) :
    readTLV (derTLV tag content ++ rest) = some (tag, content, rest) := by
  have hv : (toByte content.length).val = content.length := by
    simp only [toByte]; omega
  have h80 : (toByte content.length).val &&& 0x80 = 0 := by
    rw [hv]; exact and_0x80_of_lt ⟨_, hn⟩
  simp only [derTLV, derLength_short _ hn, List.cons_append, List.nil_append, readTLV]
  rw [if_neg ht, if_pos h80, hv, if_neg (by simp)]
  simp

theorem readTLV_derTLV_end (tag : Byte) (content : List Byte)
    (ht : tag.val &&& 0x1f ≠ 0x1f) (hn : content.length < 128) :
    readTLV (derTLV tag content) = some (tag, content, []) := by
  simpa using readTLV_derTLV tag content [] ht hn

theorem MarshalPKIXPublicKey_eq (pub : List Byte) (h : pub.length = 32) :
    MarshalPKIXPublicKey pub = asnHeader ++ pub := by
  simp [MarshalPKIXPublicKey, algorithmEd25519, derTLV, derLength, oidPublicKeyEd25519, h,
    asnHeader, toByte]

theorem parseBitString_zero (pub : List Byte) : parseBitString (0 :: pub) = some pub := by
  simp [parseBitString, RightAlign]

theorem ParsePKIXPublicKey_Marshal (pub : List Byte) (h : pub.length = 32) :
    ParsePKIXPublicKey (MarshalPKIXPublicKey pub) = some pub := by
  have hbits : (derTLV 0x03 (0x00 :: pub)).length < 128 := by
    simp [derTLV, derLength, h]
  have hbody : (algorithmEd25519 ++ derTLV 0x03 (0x00 :: pub)).length < 128 := by
    simp [algorithmEd25519, oidPublicKeyEd25519, derTLV, derLength, h]
  unfold ParsePKIXPublicKey MarshalPKIXPublicKey
  rw [readTLV_derTLV_end _ _ (by decide) hbody]
  simp only [ne_eq, not_true_eq_false, or_self, if_false]
  unfold algorithmEd25519
  rw [readTLV_derTLV _ _ _ (by decide) (by decide)]
  simp only [ne_eq, not_true_eq_false, or_self, if_false]
  rw [readTLV_derTLV_end _ _ (by decide) (by simp [h])]
  simp [parseBitString_zero, h]

theorem pkcs8Seed_Marshal (priv : List Byte) (h : 32 ≤ priv.length) :
    pkcs8Seed (MarshalPKCS8PrivateKey priv) = some (priv.take 32) := by
  have hseed : (priv.take 32).length = 32 := by simp [h]
  have hkey : (derTLV 0x04 (priv.take 32)).length < 128 := by
    simp [derTLV, derLength, h]
  have hbody : ([0x02, 0x01, 0x00] ++ algorithmEd25519 ++
      derTLV 0x04 (derTLV 0x04 (priv.take 32))).length < 128 := by
    simp [algorithmEd25519, oidPublicKeyEd25519, derTLV, derLength, h]
  have hver : ([0x02, 0x01, 0x00] : List Byte) = derTLV 0x02 [0x00] := by decide
  unfold pkcs8Seed MarshalPKCS8PrivateKey
  rw [readTLV_derTLV_end _ _ (by decide) hbody]
  simp only [ne_eq, not_true_eq_false, if_false]
  rw [hver, List.append_assoc, readTLV_derTLV _ _ _ (by decide) (by decide)]
  simp only [ne_eq, not_true_eq_false, validInteger, Bool.true_eq_false, or_self, if_false]
  unfold algorithmEd25519
  rw [readTLV_derTLV _ _ _ (by decide) (by decide)]
  simp only [ne_eq, not_true_eq_false, or_self, if_false]
  rw [readTLV_derTLV_end _ _ (by decide) hkey]
  simp only [ne_eq, not_true_eq_false, if_false]
  rw [readTLV_derTLV_end _ _ (by decide) (by omega)]
  simp [hseed]

/-! ## `keys.go`: what the three functions compute on well-formed keys -/

theorem exported_key_eq (pub : List Byte) (h : pub.length = 32) :
    b58Encode ((MarshalPKIXPublicKey pub).drop 12) = b58Encode pub := by
  rw [MarshalPKIXPublicKey_eq pub h]
  have : asnHeader.length = 12 := by decide
  rw [List.drop_left' this]

theorem VerifySignature_exported (L : Library) (m sig : GoString) (pub : List Byte)
    (h : pub.length = 32) :
    VerifySignature L m (b58Encode ((MarshalPKIXPublicKey pub).drop 12)) sig
      = ed25519Verify L pub (stringBytes m) (DecodeString sig).1 := by
  unfold VerifySignature
  simp only [exported_key_eq pub h, b58Decode_b58Encode, ← MarshalPKIXPublicKey_eq pub h,
    ParsePKIXPublicKey_Marshal pub h]

theorem GenerateSignature_encoded (L : Library) (m : GoString) (seed : List Byte)
    (h : seed.length = 32) :
    GenerateSignature L (EncodeToString (MarshalPKCS8PrivateKey (seed ++ L.publicKey seed))) m
      = some (EncodeToString (L.sign (seed ++ L.publicKey seed) (stringBytes m))) := by
  have hpub := L.publicKey_size seed h
  have htake : (seed ++ L.publicKey seed).take 32 = seed := by
    rw [List.take_left' h]
  unfold GenerateSignature
  simp only [DecodeString_EncodeToString, ParsePKCS8PrivateKey]
  rw [pkcs8Seed_Marshal _ (by simp [h]), htake]
  simp [NewKeyFromSeed, ed25519Sign, h, hpub]

theorem GenerateKeyPair_some (L : Library) (entropy : List Byte) (mn pw : GoString)
    (path : List Nat) (b : Ed25519Box) (hb : GenerateKeyPair L entropy mn pw path = some b) :
    ∃ seed : List Byte, seed.length = 32 ∧
      b.Pub = b58Encode ((MarshalPKIXPublicKey (L.publicKey seed)).drop 12) ∧
      b.Prv = EncodeToString (MarshalPKCS8PrivateKey (seed ++ L.publicKey seed)) ∧
      b.Bip44Path = effectivePath path := by
  unfold GenerateKeyPair at hb
  simp only [] at hb
  split at hb
  · exact absurd hb (by simp)
  · rename_i childKey _
    unfold generateKeyPairFromSeed NewKeyFromSeed at hb
    by_cases hlen : childKey.Key.length = 32
    · simp only [hlen, ne_eq, not_true_eq_false, if_false] at hb
      have hdrop : (childKey.Key ++ L.publicKey childKey.Key).drop 32 = L.publicKey childKey.Key :=
        List.drop_left' hlen
      rw [hdrop] at hb
      split at hb
      · exact absurd hb (by simp)
      · have hb := Option.some.inj hb
        refine ⟨childKey.Key, hlen, ?_, ?_, ?_⟩ <;> rw [← hb]
    · simp [hlen] at hb

theorem GenerateKeyPair_returns (L : Library) (entropy : List Byte) (mn pw : GoString)
    (path : List Nat) (leaf : Bip32Key)
    (hleaf : (effectivePath path).foldl (deriveStep L)
        (L.NewMasterKey (L.NewSeed (if mn = [] then L.NewMnemonic entropy else mn) pw))
      = some leaf)
    (hlen : leaf.Key.length = 32) :
    GenerateKeyPair L entropy mn pw path = some
      { Mnemonic := if mn = [] then L.NewMnemonic entropy else mn,
        Bip44Path := effectivePath path,
        Pub := b58Encode (L.publicKey leaf.Key),
        Prv := EncodeToString (MarshalPKCS8PrivateKey (leaf.Key ++ L.publicKey leaf.Key)) } := by
  have hpub := L.publicKey_size leaf.Key hlen
  have hdrop : (leaf.Key ++ L.publicKey leaf.Key).drop 32 = L.publicKey leaf.Key :=
    List.drop_left' hlen
  have hm := MarshalPKIXPublicKey_eq (L.publicKey leaf.Key) hpub
  have h12 : asnHeader.length = 12 := by decide
  unfold GenerateKeyPair
  simp only [hleaf, generateKeyPairFromSeed, NewKeyFromSeed, hlen, ne_eq, not_true_eq_false,
    if_false, hdrop, hm, List.drop_left' h12, List.length_append, h12, hpub]
  simp

theorem fitTo_length (n : Nat) (b : List Byte) : (fitTo n b).length = n := by
  simp [fitTo]

theorem demoTag_top_bits (message : List Byte) : ((demoTag message).getD 31 0).val &&& 224 = 0 := by
  have hmem : ∀ x ∈ demoTag message, x.val < 32 := by
    intro x hx
    unfold demoTag fitTo at hx
    have hx2 := List.mem_of_mem_take hx
    rw [List.mem_append] at hx2
    rcases hx2 with h | h
    · simp only [List.mem_map] at h
      obtain ⟨y, _, rfl⟩ := h
      simp only [toByte]
      omega
    · rw [List.mem_replicate] at h
      rw [h.2]; decide
  have hlen : (demoTag message).length = 32 := fitTo_length _ _
  have hget : (demoTag message).getD 31 0 ∈ demoTag message := by
    rw [List.getD_eq_getElem _ _ (by omega)]
    exact List.getElem_mem _
  have hlt := hmem _ hget
  have key : ∀ v : Fin 32, v.val &&& 224 = 0 := by decide
  exact key ⟨_, hlt⟩

theorem demoLibrary_signVerifyCorrect : SignVerifyCorrect demoLibrary := by
  intro seed message hseed
  have hpub : (demoLibrary.publicKey seed).length = 32 := demoLibrary.publicKey_size seed hseed
  have hdrop : (seed ++ demoLibrary.publicKey seed).drop 32 = demoLibrary.publicKey seed :=
    List.drop_left' hseed
  have hsig : demoLibrary.sign (seed ++ demoLibrary.publicKey seed) message
      = demoLibrary.publicKey seed ++ demoTag message := by
    show (seed ++ demoLibrary.publicKey seed).drop 32 ++ demoTag message = _
    rw [hdrop]
  have htag : (demoTag message).length = 32 := fitTo_length _ _
  have h63 : (demoLibrary.publicKey seed ++ demoTag message).getD 63 0
      = (demoTag message).getD 31 0 := by
    rw [List.getD_append_right _ _ _ _ (by omega), hpub]
  unfold ed25519Verify
  rw [hsig, h63, demoTag_top_bits]
  simp [hpub, htag, demoLibrary, fitTo_length]

/-! ## Claims on `keys.go` -/

theorem childIndex_of_lt (p : Nat) (h : p < 2 ^ 31) :
    childIndex p = 0x80000000 + p ∧ 0x80000000 ≤ childIndex p := by
  unfold childIndex FirstHardenedChild
  omega

theorem childIndex_of_ge (p : Nat) (h1 : 2 ^ 31 ≤ p) (h2 : p < 2 ^ 32) :
    childIndex p = p - 0x80000000 ∧ childIndex p < 0x80000000 := by
  unfold childIndex FirstHardenedChild
  omega

theorem derivation_uses_indices (L : Library) (path : List Nat) (k : Option Bip32Key) :
    (effectivePath path).foldl (deriveStep L) k
      = (derivationIndices path).foldl
          (fun ck idx => ck.bind (fun key => L.NewChildKey key idx)) k := by
  unfold derivationIndices
  generalize effectivePath path = ps
  induction ps generalizing k with
  | nil => rfl
  | cons p ps ih =>
    simp only [List.foldl_cons, List.map_cons]
    rw [ih]
    congr 1
    cases k <;> rfl

/-- C1 (the code at the failing input): for the path `[2147483648]`, a single
unsigned 32-bit component, the derivation loop of `GenerateKeyPair` is the one
call `NewChildKey(0)` on the master key: `0x80000000 + 0x80000000` is `0` in
`uint32` arithmetic, a non-hardened index, below `0x80000000`. -/
theorem hardened_offset_wraps (L : Library) (master : Bip32Key) :
    (effectivePath [2147483648]).foldl (deriveStep L) (some master) = L.NewChildKey master 0 ∧
      derivationIndices [2147483648] = [0] ∧ childIndex 2147483648 < FirstHardenedChild := by
  refine ⟨rfl, by decide, by decide⟩

/-- C2: for every library whose Ed25519 signatures verify, every key box `b`
that `GenerateKeyPair` returns (any entropy, mnemonic, passphrase, path) and
every message `m`, `GenerateSignature b.Prv m` returns a signature and
`VerifySignature m b.Pub` of that signature returns true. -/
theorem sign_verify_round_trip (L : Library) (hL : SignVerifyCorrect L)
    (entropy : List Byte) (mnemonic passphrase : GoString) (path : List Nat)
    (b : Ed25519Box) (m : GoString)
    (hb : GenerateKeyPair L entropy mnemonic passphrase path = some b) :
    ∃ sig, GenerateSignature L b.Prv m = some sig ∧
      VerifySignature L m b.Pub sig = some true := by
  obtain ⟨seed, hseed, hpub, hprv, _⟩ := GenerateKeyPair_some L entropy mnemonic passphrase path b hb
  refine ⟨EncodeToString (L.sign (seed ++ L.publicKey seed) (stringBytes m)), ?_, ?_⟩
  · rw [hprv]; exact GenerateSignature_encoded L m seed hseed
  · rw [hpub, VerifySignature_exported L m _ _ (L.publicKey_size seed hseed),
      DecodeString_EncodeToString]
    exact hL seed (stringBytes m) hseed

theorem demo_box_isSome :
    (GenerateKeyPair demoLibrary [] "abc".data [] []).isSome = true := by
  decide

/-- C2, at a concrete input: the key box of the mnemonic `abc` on the default
path, and the message `hello`. -/
theorem sign_verify_round_trip_witness :
    SignVerifyCorrect demoLibrary ∧
    ∃ b, GenerateKeyPair demoLibrary [] "abc".data [] [] = some b ∧
      ∃ sig, GenerateSignature demoLibrary b.Prv "hello".data = some sig ∧
        VerifySignature demoLibrary "hello".data b.Pub sig = some true :=
  ⟨demoLibrary_signVerifyCorrect,
   (GenerateKeyPair demoLibrary [] "abc".data [] []).get demo_box_isSome,
   (Option.some_get demo_box_isSome).symm,
   sign_verify_round_trip demoLibrary demoLibrary_signVerifyCorrect [] "abc".data [] []
     ((GenerateKeyPair demoLibrary [] "abc".data [] []).get demo_box_isSome) "hello".data
     (Option.some_get demo_box_isSome).symm⟩

theorem ed25519Verify_of_size (L : Library) (pub message sig : List Byte)
    (h : pub.length = 32) :
    ∃ r : Bool, ed25519Verify L pub message sig = some r ∧ (sig.length ≠ 64 → r = false) := by
  unfold ed25519Verify
  rw [if_neg (by simp [h])]
  split
  · exact ⟨false, rfl, fun _ => rfl⟩
  · rename_i hcond
    exact ⟨_, rfl, fun hne => absurd (Or.inl hne) hcond⟩

theorem pkix_base58_round_trip (pub : List Byte) (h : pub.length = 32) :
    (MarshalPKIXPublicKey pub).take 12
        = [0x30, 0x2a, 0x30, 0x05, 0x06, 0x03, 0x2b, 0x65, 0x70, 0x03, 0x21, 0x00] ∧
      asnHeader ++ b58Decode (b58Encode ((MarshalPKIXPublicKey pub).drop 12))
        = MarshalPKIXPublicKey pub ∧
      ParsePKIXPublicKey (asnHeader ++ b58Decode (b58Encode ((MarshalPKIXPublicKey pub).drop 12)))
        = some pub := by
  have hlen : asnHeader.length = 12 := by decide
  have hrt : asnHeader ++ b58Decode (b58Encode ((MarshalPKIXPublicKey pub).drop 12))
      = MarshalPKIXPublicKey pub := by
    rw [b58Decode_b58Encode, MarshalPKIXPublicKey_eq pub h, List.drop_left' hlen]
  refine ⟨?_, hrt, ?_⟩
  · rw [MarshalPKIXPublicKey_eq pub h, List.take_left' hlen]
    rfl
  · rw [hrt]; exact ParsePKIXPublicKey_Marshal pub h

theorem generateKeyPairFromSeed_of_size (L : Library) (seed : List Byte) (h : seed.length = 32) :
    generateKeyPairFromSeed L seed = some (L.publicKey seed, seed ++ L.publicKey seed) := by
  have hdrop : (seed ++ L.publicKey seed).drop 32 = L.publicKey seed := List.drop_left' h
  simp [generateKeyPairFromSeed, NewKeyFromSeed, h, hdrop]

/-- C3: (1) every key box `b` that `GenerateKeyPair` returns exports a 32-byte
public key `key` of the pair it built: the 12 bytes it strips from the PKIX
serialisation of `key` are the constant `30 2A 30 05 06 03 2B 65 70 03 21 00`,
`b.Pub` is the base-58 form of the rest, which is `key` itself; base-58
decoding `b.Pub` and putting the constant in front gives the full
serialisation again, it parses back to `key`, and `VerifySignature` on `b.Pub`
verifies under `key`.  (2) The same holds for every 32-byte public key `pub`,
leading zero bytes or not: the stripped bytes are the constant, and
`VerifySignature` on the exported string rebuilds the serialisation, parses
`pub` back and verifies under it without a panic. -/
theorem public_key_encoding_round_trip (L : Library) (entropy : List Byte)
    (mnemonic passphrase : GoString) (path : List Nat) (b : Ed25519Box)
    (hb : GenerateKeyPair L entropy mnemonic passphrase path = some b)
    (pub : List Byte) (h : pub.length = 32) :
    (∃ seed key priv, generateKeyPairFromSeed L seed = some (key, priv) ∧
        b.Prv = EncodeToString (MarshalPKCS8PrivateKey priv) ∧
        key.length = 32 ∧
        (MarshalPKIXPublicKey key).take 12
          = [0x30, 0x2a, 0x30, 0x05, 0x06, 0x03, 0x2b, 0x65, 0x70, 0x03, 0x21, 0x00] ∧
        b.Pub = b58Encode ((MarshalPKIXPublicKey key).drop 12) ∧
        b.Pub = b58Encode key ∧
        asnHeader ++ b58Decode b.Pub = MarshalPKIXPublicKey key ∧
        ParsePKIXPublicKey (asnHeader ++ b58Decode b.Pub) = some key ∧
        ∀ m sig, VerifySignature L m b.Pub sig
          = ed25519Verify L key (stringBytes m) (DecodeString sig).1) ∧
      ((MarshalPKIXPublicKey pub).take 12
          = [0x30, 0x2a, 0x30, 0x05, 0x06, 0x03, 0x2b, 0x65, 0x70, 0x03, 0x21, 0x00] ∧
        asnHeader ++ b58Decode (b58Encode ((MarshalPKIXPublicKey pub).drop 12))
          = MarshalPKIXPublicKey pub ∧
        ParsePKIXPublicKey
            (asnHeader ++ b58Decode (b58Encode ((MarshalPKIXPublicKey pub).drop 12)))
          = some pub ∧
        ∀ m sig, VerifySignature L m (b58Encode ((MarshalPKIXPublicKey pub).drop 12)) sig
            = ed25519Verify L pub (stringBytes m) (DecodeString sig).1 ∧
          VerifySignature L m (b58Encode ((MarshalPKIXPublicKey pub).drop 12)) sig ≠ none) := by
  obtain ⟨seed, hseed, hpubEq, hprv, _⟩ :=
    GenerateKeyPair_some L entropy mnemonic passphrase path b hb
  have hkey := L.publicKey_size seed hseed
  obtain ⟨k1, k2, k3⟩ := pkix_base58_round_trip (L.publicKey seed) hkey
  obtain ⟨p1, p2, p3⟩ := pkix_base58_round_trip pub h
  refine ⟨⟨seed, L.publicKey seed, seed ++ L.publicKey seed,
    generateKeyPairFromSeed_of_size L seed hseed, hprv, hkey, k1, hpubEq, ?_, ?_, ?_, ?_⟩,
    p1, p2, p3, ?_⟩
  · rw [hpubEq]; exact exported_key_eq _ hkey
  · rw [hpubEq]; exact k2
  · rw [hpubEq]; exact k3
  · intro m sig
    rw [hpubEq]; exact VerifySignature_exported L m sig _ hkey
  · intro m sig
    have hv := VerifySignature_exported L m sig pub h
    refine ⟨hv, ?_⟩
    obtain ⟨r, hr, _⟩ := ed25519Verify_of_size L pub (stringBytes m) (DecodeString sig).1 h
    rw [hv, hr]; simp

/-- C3, at a concrete input: the key box of the mnemonic `abc` on the default
path, and a 32-byte key with two leading zero bytes. -/
theorem public_key_encoding_round_trip_witness :
    (0 :: 0 :: List.replicate 30 (7 : Byte)).length = 32 ∧
    ∃ b, GenerateKeyPair demoLibrary [] "abc".data [] [] = some b ∧
      (∃ key, key.length = 32 ∧ b.Pub = b58Encode key ∧
        ParsePKIXPublicKey (asnHeader ++ b58Decode b.Pub) = some key) ∧
      ParsePKIXPublicKey (asnHeader ++ b58Decode (b58Encode
          ((MarshalPKIXPublicKey (0 :: 0 :: List.replicate 30 (7 : Byte))).drop 12)))
        = some (0 :: 0 :: List.replicate 30 (7 : Byte)) :=
  have hthm := public_key_encoding_round_trip demoLibrary [] "abc".data [] []
    ((GenerateKeyPair demoLibrary [] "abc".data [] []).get demo_box_isSome)
    (Option.some_get demo_box_isSome).symm (0 :: 0 :: List.replicate 30 (7 : Byte)) (by decide)
  ⟨by decide, _, (Option.some_get demo_box_isSome).symm,
   (match hthm.1 with
    | ⟨_, key, _, _, _, hk, _, _, he, _, hp, _⟩ => ⟨key, hk, he, hp⟩),
   hthm.2.2.2.1⟩

/-- C4: for every non-empty mnemonic and every passphrase, `GenerateKeyPair`
with an empty path returns the same result as with the path
`[44, 7337, 0, 0]` (whatever the entropy source yields at either call), and a
key box it returns has `Bip44Path = [44, 7337, 0, 0]`. -/
theorem default_path (L : Library) (entropy1 entropy2 : List Byte)
    (mnemonic passphrase : GoString) (h : mnemonic ≠ []) :
    GenerateKeyPair L entropy1 mnemonic passphrase []
        = GenerateKeyPair L entropy2 mnemonic passphrase [44, 7337, 0, 0] ∧
      ∀ b, GenerateKeyPair L entropy1 mnemonic passphrase [] = some b →
        b.Bip44Path = [44, 7337, 0, 0] := by
  constructor
  · simp [GenerateKeyPair, effectivePath, h]
  · intro b hb
    obtain ⟨_, _, _, _, hp⟩ := GenerateKeyPair_some L entropy1 mnemonic passphrase [] b hb
    rw [hp]; rfl

/-- C4, at a concrete input: the mnemonic `abc`, for which the call returns a
key box. -/
theorem default_path_witness :
    "abc".data ≠ [] ∧
    (GenerateKeyPair demoLibrary [] "abc".data [] []).isSome = true ∧
    GenerateKeyPair demoLibrary [] "abc".data [] []
      = GenerateKeyPair demoLibrary [1] "abc".data [] [44, 7337, 0, 0] :=
  ⟨by decide, by decide, (default_path demoLibrary [] [1] "abc".data [] (by decide)).1⟩

/-- C5 as stated fails: with an empty mnemonic the mnemonic is made from the
entropy source, and two calls with the same (empty) mnemonic, passphrase and
path that see different entropy return different encoded public keys (run
here on `demoLibrary`). -/
theorem determinism_fails_on_empty_mnemonic :
    (GenerateKeyPair demoLibrary (List.replicate 32 0) [] [] []).map Ed25519Box.Pub
      ≠ (GenerateKeyPair demoLibrary (List.replicate 32 1) [] [] []).map Ed25519Box.Pub := by
  decide

/-- C5, amended: for every non-empty mnemonic, passphrase and path, two calls
of `GenerateKeyPair` return the same result (so the same `Pub` and `Prv`),
whatever the entropy source yields at each call. -/
theorem determinism (L : Library) (entropy1 entropy2 : List Byte)
    (mnemonic passphrase : GoString) (path : List Nat) (h : mnemonic ≠ []) :
    GenerateKeyPair L entropy1 mnemonic passphrase path
      = GenerateKeyPair L entropy2 mnemonic passphrase path := by
  simp [GenerateKeyPair, h]

/-- C5 amended, at a concrete input. -/
theorem determinism_witness :
    "abc".data ≠ [] ∧
    GenerateKeyPair demoLibrary (List.replicate 32 0) "abc".data "pw".data [1, 2]
      = GenerateKeyPair demoLibrary (List.replicate 32 1) "abc".data "pw".data [1, 2] :=
  ⟨by decide, determinism demoLibrary _ _ "abc".data "pw".data [1, 2] (by decide)⟩

/-- C8: for every message, every signature argument and every encoded public
key that is the export of a 32-byte key, `VerifySignature` returns a boolean
(it does not panic), and that boolean is false whenever the bytes decoded from
the signature argument are not 64 bytes long. -/
theorem verify_never_aborts (L : Library) (m sig : GoString) (pub : List Byte)
    (h : pub.length = 32) :
    ∃ r : Bool, VerifySignature L m (b58Encode ((MarshalPKIXPublicKey pub).drop 12)) sig = some r ∧
      ((DecodeString sig).1.length ≠ 64 → r = false) := by
  rw [VerifySignature_exported L m sig pub h]
  exact ed25519Verify_of_size L pub (stringBytes m) (DecodeString sig).1 h

/-- C8, at a concrete input: a signature argument that decodes to three
bytes. -/
theorem verify_never_aborts_witness :
    (List.replicate 32 (7 : Byte)).length = 32 ∧
    ∃ r : Bool, VerifySignature demoLibrary "hello".data
        (b58Encode ((MarshalPKIXPublicKey (List.replicate 32 7)).drop 12)) "AQID".data = some r ∧
      ((DecodeString "AQID".data).1.length ≠ 64 → r = false) :=
  ⟨by decide, verify_never_aborts demoLibrary "hello".data "AQID".data _ (by decide)⟩

/-- C9 as stated fails: the signature argument `AQID!BA==` is not valid
standard base-64 (`DecodeString` returns an error), the public key is the
export of a 32-byte key, and `VerifySignature` returns the verification result
`false` instead of signalling a failure. -/
theorem malformed_signature_gives_false :
    (DecodeString "AQID!BA==".data).2 = true ∧
    VerifySignature demoLibrary "hello".data
        (b58Encode ((MarshalPKIXPublicKey (List.replicate 32 7)).drop 12)) "AQID!BA==".data
      = some false := by
  decide

/-- C9, amended: for every message, every export of a 32-byte public key and
every signature argument that is not valid standard base-64, `VerifySignature`
signals no failure: it returns the result of `ed25519.Verify` on the bytes
decoded before the error, which is false when those are not 64 bytes. -/
theorem malformed_signature_is_verified (L : Library) (m sig : GoString) (pub : List Byte)
    (h : pub.length = 32) (_hs : (DecodeString sig).2 = true) :
    VerifySignature L m (b58Encode ((MarshalPKIXPublicKey pub).drop 12)) sig
        = ed25519Verify L pub (stringBytes m) (DecodeString sig).1 ∧
      VerifySignature L m (b58Encode ((MarshalPKIXPublicKey pub).drop 12)) sig ≠ none ∧
      ((DecodeString sig).1.length ≠ 64 →
        VerifySignature L m (b58Encode ((MarshalPKIXPublicKey pub).drop 12)) sig = some false) := by
  obtain ⟨r, hr, hfalse⟩ := ed25519Verify_of_size L pub (stringBytes m) (DecodeString sig).1 h
  rw [VerifySignature_exported L m sig pub h]
  refine ⟨rfl, ?_, ?_⟩
  · rw [hr]; simp
  · intro hne
    rw [hr, hfalse hne]

/-- C9 amended, at a concrete input. -/
theorem malformed_signature_is_verified_witness :
    (List.replicate 32 (7 : Byte)).length = 32 ∧ (DecodeString "AQID!BA==".data).2 = true ∧
    VerifySignature demoLibrary "hello".data
        (b58Encode ((MarshalPKIXPublicKey (List.replicate 32 7)).drop 12)) "AQID!BA==".data
      ≠ none :=
  ⟨by decide, by decide,
   (malformed_signature_is_verified demoLibrary "hello".data "AQID!BA==".data _
     (by decide) (by decide)).2.1⟩

/-- C10 as stated fails: the private-key string below is a valid encoded key
followed by `!`, so it is not valid standard base-64 (`DecodeString` returns an
error), and `GenerateSignature` still produces a signature, from the key bytes
decoded before the error. -/
theorem trailing_garbage_key_still_signs :
    (DecodeString "MC4CAQAwBQYDK2VwBCIEIDo7PNnZ2dnZ2dnZ2dnZ2dnZ2dnZ2dnZ2dnZ2dnZ2dnZ!".data).2 = true ∧
    (GenerateSignature demoLibrary
      "MC4CAQAwBQYDK2VwBCIEIDo7PNnZ2dnZ2dnZ2dnZ2dnZ2dnZ2dnZ2dnZ2dnZ2dnZ!".data
      "hello".data).isSome = true ∧
    GenerateSignature demoLibrary
      "MC4CAQAwBQYDK2VwBCIEIDo7PNnZ2dnZ2dnZ2dnZ2dnZ2dnZ2dnZ2dnZ2dnZ2dnZ!".data "hello".data
      = GenerateSignature demoLibrary
      "MC4CAQAwBQYDK2VwBCIEIDo7PNnZ2dnZ2dnZ2dnZ2dnZ2dnZ2dnZ2dnZ2dnZ2dnZ".data "hello".data := by
  decide

/-- C10, amended: for every message and every private-key string,
`GenerateSignature` aborts and produces no signature exactly when the bytes
that base-64 decoding yields (all of them, or those before its first error) are
not a PKCS#8 container holding an Ed25519 key; otherwise it signs with the key
of the seed held in those bytes, an ignored base-64 error notwithstanding. -/
theorem private_key_decoding (L : Library) (key m : GoString) :
    (GenerateSignature L key m = none ↔ pkcs8Seed (DecodeString key).1 = none) ∧
      ∀ seed, pkcs8Seed (DecodeString key).1 = some seed →
        GenerateSignature L key m
          = some (EncodeToString (L.sign (seed ++ L.publicKey seed) (stringBytes m))) := by
  have hseedlen : ∀ seed, pkcs8Seed (DecodeString key).1 = some seed → seed.length = 32 := by
    intro seed hseed
    unfold pkcs8Seed at hseed
    repeat' split at hseed
    all_goals first
      | (cases hseed; done)
      | skip
    cases hseed
    rename_i hcond
    simp only [not_or, ne_eq, not_not] at hcond
    exact hcond.2
  have hsome : ∀ seed, pkcs8Seed (DecodeString key).1 = some seed →
      GenerateSignature L key m
        = some (EncodeToString (L.sign (seed ++ L.publicKey seed) (stringBytes m))) := by
    intro seed hseed
    have hlen := hseedlen seed hseed
    have hpub := L.publicKey_size seed hlen
    simp [GenerateSignature, ParsePKCS8PrivateKey, hseed, NewKeyFromSeed, ed25519Sign, hlen, hpub]
  refine ⟨?_, hsome⟩
  constructor
  · intro hnone
    cases hseed : pkcs8Seed (DecodeString key).1 with
    | none => rfl
    | some seed => rw [hsome seed hseed] at hnone; exact absurd hnone (by simp)
  · intro hnone
    simp [GenerateSignature, ParsePKCS8PrivateKey, hnone]

theorem demo_key_isSome :
    (pkcs8Seed (DecodeString
      "MC4CAQAwBQYDK2VwBCIEIDo7PNnZ2dnZ2dnZ2dnZ2dnZ2dnZ2dnZ2dnZ2dnZ2dnZ!".data).1).isSome = true := by
  decide

/-- C10 amended, at a concrete input: the bytes decoded from a valid encoded
key followed by `!` hold a seed, and the signature is made with its key. -/
theorem private_key_decoding_witness :
    ∃ seed, pkcs8Seed (DecodeString
        "MC4CAQAwBQYDK2VwBCIEIDo7PNnZ2dnZ2dnZ2dnZ2dnZ2dnZ2dnZ2dnZ2dnZ2dnZ!".data).1 = some seed ∧
      GenerateSignature demoLibrary
        "MC4CAQAwBQYDK2VwBCIEIDo7PNnZ2dnZ2dnZ2dnZ2dnZ2dnZ2dnZ2dnZ2dnZ2dnZ!".data "hello".data
        = some (EncodeToString
            (demoLibrary.sign (seed ++ demoLibrary.publicKey seed) (stringBytes "hello".data))) :=
  ⟨_, (Option.some_get demo_key_isSome).symm,
   (private_key_decoding demoLibrary
     "MC4CAQAwBQYDK2VwBCIEIDo7PNnZ2dnZ2dnZ2dnZ2dnZ2dnZ2dnZ2dnZ2dnZ2dnZ!".data "hello".data).2 _
     (Option.some_get demo_key_isSome).symm⟩

/-! ## `strconv.ParseUint` on a path component -/

theorem digitValue_of_digit (c : Char) (h : isDigitChar c = true) :
    digitValue c = some (c.toNat - 48) := by
  simp only [isDigitChar, decide_eq_true_eq] at h
  simp [digitValue, h]

theorem digitValue_of_not_digit (c : Char) (h : isDigitChar c = false) :
    digitValue c = none ∨ ∃ d, digitValue c = some d ∧ 10 ≤ d := by
  simp only [isDigitChar, decide_eq_false_iff_not] at h
  unfold digitValue
  simp only [if_neg h]
  split
  · exact Or.inr ⟨_, rfl, by omega⟩
  · exact Or.inl rfl

theorem le_decimalFrom (t : GoString) (n : Nat) : n ≤ decimalFrom n t := by
  induction t generalizing n with
  | nil => exact le_refl _
  | cons c cs ih =>
    have := ih (n * 10 + (c.toNat - 48))
    simp only [decimalFrom, List.foldl_cons] at this ⊢
    omega

theorem parseUintLoop_digits (cs : GoString) (n : Nat) (hn : n < 2 ^ 32)
    (hd : ∀ c ∈ cs, isDigitChar c = true) :
    parseUintLoop 10 (2 ^ 32 - 1) cs n
      = if decimalFrom n cs < 2 ^ 32 then .ok (decimalFrom n cs) else .error .ErrRange := by
  induction cs generalizing n with
  | nil =>
    show Except.ok n = if n < 2 ^ 32 then Except.ok n else Except.error NumError.ErrRange
    rw [if_pos hn]
  | cons c cs ih =>
    have hc := hd c (by simp)
    have hc2 := hc
    simp only [isDigitChar, decide_eq_true_eq] at hc2
    have hstep : decimalFrom n (c :: cs) = decimalFrom (n * 10 + (c.toNat - 48)) cs := rfl
    have hmono := le_decimalFrom cs (n * 10 + (c.toNat - 48))
    rw [parseUintLoop, digitValue_of_digit c hc, hstep]
    simp only []
    rw [if_neg (by omega), if_neg (by omega)]
    have e1 : n * 10 % 2 ^ 64 = n * 10 := Nat.mod_eq_of_lt (by omega)
    have e2 : (n * 10 + (c.toNat - 48)) % 2 ^ 64 = n * 10 + (c.toNat - 48) :=
      Nat.mod_eq_of_lt (by omega)
    rw [e1, e2]
    by_cases hbig : n * 10 + (c.toNat - 48) > 2 ^ 32 - 1
    · rw [if_pos (Or.inr hbig), if_neg (by omega)]
    · rw [if_neg (by omega)]
      exact ih _ (by omega) (fun x hx => hd x (by simp [hx]))

theorem parseUintLoop_not_digits (cs : GoString) (n : Nat) (hn : n < 2 ^ 32)
    (hd : ¬ ∀ c ∈ cs, isDigitChar c = true) :
    ∃ e, parseUintLoop 10 (2 ^ 32 - 1) cs n = .error e := by
  induction cs generalizing n with
  | nil => exact absurd (by simp) hd
  | cons c cs ih =>
    rw [parseUintLoop]
    by_cases hc : isDigitChar c = true
    · have hc2 := hc
      simp only [isDigitChar, decide_eq_true_eq] at hc2
      rw [digitValue_of_digit c hc]
      simp only []
      rw [if_neg (by omega), if_neg (by omega)]
      have e1 : n * 10 % 2 ^ 64 = n * 10 := Nat.mod_eq_of_lt (by omega)
      have e2 : (n * 10 + (c.toNat - 48)) % 2 ^ 64 = n * 10 + (c.toNat - 48) :=
        Nat.mod_eq_of_lt (by omega)
      rw [e1, e2]
      by_cases hbig : n * 10 + (c.toNat - 48) > 2 ^ 32 - 1
      · rw [if_pos (Or.inr hbig)]; exact ⟨_, rfl⟩
      · rw [if_neg (by omega)]
        apply ih _ (by omega)
        intro hall
        apply hd
        intro x hx
        rcases List.mem_cons.mp hx with rfl | hx
        · exact hc
        · exact hall x hx
    · have hc : isDigitChar c = false := by simpa using hc
      rcases digitValue_of_not_digit c hc with h | ⟨d, h, hd10⟩
      · rw [h]; exact ⟨_, rfl⟩
      · rw [h]
        simp only []
        rw [if_pos hd10]; exact ⟨_, rfl⟩

theorem ParseUint_of_fits (t : GoString) (h : fitsUint32 t = true) :
    ParseUint t 10 32 = .ok (decimalValue t) := by
  simp only [fitsUint32, isDecimal, Bool.and_eq_true, decide_eq_true_eq, List.all_eq_true] at h
  obtain ⟨⟨hne, hd⟩, hv⟩ := h
  unfold ParseUint
  rw [if_neg hne, parseUintLoop_digits t 0 (by decide) hd]
  exact if_pos hv

theorem ParseUint_of_not_fits (t : GoString) (h : fitsUint32 t = false) :
    ∃ e, ParseUint t 10 32 = .error e := by
  unfold ParseUint
  by_cases hne : t = []
  · rw [if_pos hne]; exact ⟨_, rfl⟩
  · rw [if_neg hne]
    by_cases hd : ∀ c ∈ t, isDigitChar c = true
    · rw [parseUintLoop_digits t 0 (by decide) hd]
      have hv : ¬ decimalValue t < 2 ^ 32 := by
        intro hv
        have : fitsUint32 t = true := by
          simp only [fitsUint32, isDecimal, Bool.and_eq_true, decide_eq_true_eq,
            List.all_eq_true]
          exact ⟨⟨hne, hd⟩, hv⟩
        rw [h] at this
        exact absurd this (by simp)
      exact ⟨_, if_neg hv⟩
    · exact parseUintLoop_not_digits t 0 (by decide) hd

/-! ## The loop of `runKeygen` over the parts -/

theorem parseParts_ok (parts : List GoString) (acc : List Nat)
    (h : ∀ t ∈ (parts.map TrimSpace).filter (fun t => decide (t ≠ [])), fitsUint32 t = true) :
    parseParts parts acc
      = .ok (acc ++ ((parts.map TrimSpace).filter (fun t => decide (t ≠ []))).map decimalValue) := by
  induction parts generalizing acc with
  | nil => simp [parseParts]
  | cons p ps ih =>
    rw [parseParts]
    by_cases hp : TrimSpace p = []
    · rw [if_pos hp]
      have hrest : ∀ t ∈ (ps.map TrimSpace).filter (fun t => decide (t ≠ [])),
          fitsUint32 t = true := by
        intro t ht
        apply h
        simpa [hp] using ht
      rw [ih acc hrest]
      simp [hp]
    · rw [if_neg hp]
      have hfit : fitsUint32 (TrimSpace p) = true := by
        apply h
        simp [hp]
      have hlt : decimalValue (TrimSpace p) < 2 ^ 32 := by
        simp only [fitsUint32, Bool.and_eq_true, decide_eq_true_eq] at hfit
        exact hfit.2
      have hrest : ∀ t ∈ (ps.map TrimSpace).filter (fun t => decide (t ≠ [])),
          fitsUint32 t = true := by
        intro t ht
        apply h
        simp only [List.map_cons, List.filter_cons, hp, ne_eq, not_false_eq_true, decide_True,
          if_true, List.mem_cons]
        exact Or.inr ht
      rw [ParseUint_of_fits _ hfit]
      simp only []
      rw [ih _ hrest, Nat.mod_eq_of_lt hlt]
      simp [hp]

theorem parseParts_error (parts : List GoString) (acc : List Nat) (tok : GoString)
    (h : ((parts.map TrimSpace).filter (fun t => decide (t ≠ []))).find?
        (fun t => !fitsUint32 t) = some tok) :
    ∃ cause, parseParts parts acc = .error (.invalidComponent tok cause) := by
  induction parts generalizing acc with
  | nil => simp at h
  | cons p ps ih =>
    rw [parseParts]
    by_cases hp : TrimSpace p = []
    · rw [if_pos hp]
      apply ih
      simpa [hp] using h
    · rw [if_neg hp]
      simp only [List.map_cons, List.filter_cons, hp, ne_eq, not_false_eq_true, decide_True,
        if_true, List.find?_cons] at h
      by_cases hfit : fitsUint32 (TrimSpace p) = true
      · rw [ParseUint_of_fits _ hfit]
        simp only []
        apply ih
        simpa [hfit] using h
      · have hfit : fitsUint32 (TrimSpace p) = false := by simpa using hfit
        simp only [hfit, Bool.not_false] at h
        have htok : TrimSpace p = tok := Option.some.inj h
        obtain ⟨e, he⟩ := ParseUint_of_not_fits _ hfit
        rw [he, htok]
        exact ⟨e, rfl⟩

/-! ## Splitting and trimming -/

theorem all_space_of_TrimSpace_nil (s : GoString) (h : TrimSpace s = []) :
    ∀ c ∈ s, isSpace c = true := by
  unfold TrimSpace at h
  rw [List.reverse_eq_nil_iff, List.dropWhile_eq_nil_iff] at h
  have hall : ∀ x ∈ s.dropWhile isSpace, isSpace x = true := fun x hx =>
    h x (List.mem_reverse.mpr hx)
  have hnil : s.dropWhile isSpace = [] := by
    cases hd : s.dropWhile isSpace with
    | nil => rfl
    | cons x xs =>
      have h1 := List.head?_dropWhile_not isSpace s
      rw [hd] at h1
      have h2 := hall x (by rw [hd]; simp)
      simp only [List.head?_cons, Option.elim] at h1
      rw [h2] at h1
      exact absurd h1 (by simp)
  exact List.dropWhile_eq_nil_iff.mp hnil

theorem TrimSpace_of_no_space (t : GoString) (h : ∀ c ∈ t, isSpace c = false) :
    TrimSpace t = t := by
  have drop_self : ∀ u : GoString, (∀ c ∈ u, isSpace c = false) → u.dropWhile isSpace = u := by
    intro u hu
    cases u with
    | nil => rfl
    | cons x xs => simp [List.dropWhile_cons, hu x (by simp)]
  unfold TrimSpace
  rw [drop_self t h, drop_self t.reverse (fun c hc => h c (List.mem_reverse.mp hc)),
    List.reverse_reverse]

theorem pathComponents_of_TrimSpace_nil (s : GoString) (h : TrimSpace s = []) :
    pathComponents s = [] := by
  have hall := all_space_of_TrimSpace_nil s h
  have hsplit : s.splitOn '/' = [s] := by
    apply List.splitOnP_eq_single
    intro x hx hx2
    have : x = '/' := by simpa using hx2
    subst this
    have := hall _ hx
    exact absurd this (by decide)
  simp [pathComponents, hsplit, h]

theorem parsePath_ok (s : GoString) (h : ∀ t ∈ pathComponents s, fitsUint32 t = true) :
    parsePath s = .ok ((pathComponents s).map decimalValue) := by
  unfold parsePath
  by_cases ht : TrimSpace s = []
  · rw [if_neg (by simpa using ht), pathComponents_of_TrimSpace_nil s ht]
    rfl
  · rw [if_pos ht, parseParts_ok _ _ h]
    rfl

theorem parsePath_error (s tok : GoString)
    (h : (pathComponents s).find? (fun t => !fitsUint32 t) = some tok) :
    ∃ cause, parsePath s = .error (.invalidComponent tok cause) := by
  unfold parsePath
  by_cases ht : TrimSpace s = []
  · rw [pathComponents_of_TrimSpace_nil s ht] at h
    simp at h
  · rw [if_pos ht]
    exact parseParts_error _ _ tok h

/-! ## Decimal forms -/

theorem digitChar_toNat : ∀ d : Fin 10, (Char.ofNat (48 + d.val)).toNat = 48 + d.val := by
  decide

theorem isSpace_of_digit (c : Char) (h : isDigitChar c = true) : isSpace c = false := by
  simp only [isDigitChar, decide_eq_true_eq] at h
  simp only [isSpace, Bool.or_eq_false_iff, Bool.and_eq_false_iff, decide_eq_false_iff_not]
  omega

theorem ne_slash_of_digit (c : Char) (h : isDigitChar c = true) : c ≠ '/' := by
  intro hc
  subst hc
  exact absurd h (by decide)

theorem decimalForm_digits (n : Nat) : ∀ c ∈ decimalForm n, isDigitChar c = true := by
  intro c hc
  unfold decimalForm at hc
  split at hc
  · have : c = '0' := by simpa using hc
    subst this; decide
  · rw [digitsLE_eq_digits 10 (by decide) _ _ (le_refl _)] at hc
    simp only [List.mem_map, List.mem_reverse] at hc
    obtain ⟨d, hd, rfl⟩ := hc
    have hlt : d < 10 := Nat.digits_lt_base (by decide) hd
    have := digitChar_toNat ⟨d, hlt⟩
    simp only [] at this
    simp only [isDigitChar, this, decide_eq_true_eq]
    omega

theorem decimalForm_ne_nil (n : Nat) : decimalForm n ≠ [] := by
  unfold decimalForm
  split
  · simp
  · rename_i hn
    rw [digitsLE_eq_digits 10 (by decide) _ _ (le_refl _)]
    simpa [Nat.digits_ne_nil_iff_ne_zero] using hn

theorem decimalFrom_map (ds : List Nat) (h : ∀ d ∈ ds, d < 10) (a : Nat) :
    decimalFrom a (ds.map (fun d => Char.ofNat (48 + d)))
      = ds.foldl (fun acc d => acc * 10 + d) a := by
  induction ds generalizing a with
  | nil => rfl
  | cons d ds ih =>
    have hd : d < 10 := h d (by simp)
    have hv := digitChar_toNat ⟨d, hd⟩
    simp only [] at hv
    have hstep : decimalFrom a ((d :: ds).map (fun d => Char.ofNat (48 + d)))
        = decimalFrom (a * 10 + ((Char.ofNat (48 + d)).toNat - 48))
            (ds.map (fun d => Char.ofNat (48 + d))) := rfl
    rw [hstep, hv, ih (fun x hx => h x (by simp [hx]))]
    simp

theorem foldl10_eq (ds : List Nat) (a : Nat) :
    ds.foldl (fun acc d => acc * 10 + d) a = a * 10 ^ ds.length + Nat.ofDigits 10 ds.reverse := by
  induction ds generalizing a with
  | nil => simp
  | cons x xs ih =>
    simp only [List.foldl_cons, List.length_cons, List.reverse_cons]
    rw [ih, Nat.ofDigits_append]
    simp only [List.length_reverse, Nat.ofDigits_singleton]
    ring

theorem decimalValue_decimalForm (n : Nat) : decimalValue (decimalForm n) = n := by
  unfold decimalForm decimalValue
  split
  · rename_i hn; subst hn; decide
  · rw [digitsLE_eq_digits 10 (by decide) _ _ (le_refl _),
      decimalFrom_map _ (fun d hd => Nat.digits_lt_base (by decide) (List.mem_reverse.mp hd)),
      foldl10_eq]
    simp [Nat.ofDigits_digits]

theorem fitsUint32_decimalForm (n : Nat) (h : n < 2 ^ 32) : fitsUint32 (decimalForm n) = true := by
  simp only [fitsUint32, isDecimal, Bool.and_eq_true, decide_eq_true_eq, List.all_eq_true]
  exact ⟨⟨decimalForm_ne_nil n, decimalForm_digits n⟩, by rw [decimalValue_decimalForm]; exact h⟩

theorem pathComponents_joinPath (l : List Nat) :
    pathComponents (joinPath l) = l.map decimalForm := by
  by_cases hl : l = []
  · subst hl; decide
  · have hsplit : (joinPath l).splitOn '/' = l.map decimalForm := by
      apply List.splitOn_intercalate
      · intro t ht hmem
        obtain ⟨n, _, rfl⟩ := List.mem_map.mp ht
        exact ne_slash_of_digit _ (decimalForm_digits n _ hmem) rfl
      · simpa using hl
    have htrim : (l.map decimalForm).map TrimSpace = l.map decimalForm := by
      rw [List.map_map]
      apply List.map_congr_left
      intro n _
      exact TrimSpace_of_no_space _ (fun c hc => isSpace_of_digit c (decimalForm_digits n c hc))
    unfold pathComponents
    rw [hsplit, htrim, List.filter_eq_self]
    intro t ht
    obtain ⟨n, _, rfl⟩ := List.mem_map.mp ht
    simpa using decimalForm_ne_nil n

/-! ## Claims on the `-path` flag -/

/-- C6: when every component of the `-path` string is, after trimming, empty
or an unsigned decimal integer that fits in 32 bits, `runKeygen` returns no
error and hands `GenerateKeyPair` the values of the non-empty components, in
order; and for every list of `uint32` values, the decimal forms joined with
`/` are parsed back to that list. -/
theorem path_parsing (L : Library) (entropy : List Byte) (mnemonic passphrase : GoString)
    (s : GoString) (h : ∀ t ∈ pathComponents s, fitsUint32 t = true)
    (l : List Nat) (hl : ∀ n ∈ l, n < 2 ^ 32) :
    runKeygen L entropy mnemonic passphrase s
        = .ok (GenerateKeyPair L entropy mnemonic passphrase ((pathComponents s).map decimalValue)) ∧
      runKeygen L entropy mnemonic passphrase (joinPath l)
        = .ok (GenerateKeyPair L entropy mnemonic passphrase l) := by
  constructor
  · unfold runKeygen
    rw [parsePath_ok s h]
  · have hfit : ∀ t ∈ pathComponents (joinPath l), fitsUint32 t = true := by
      intro t ht
      rw [pathComponents_joinPath] at ht
      obtain ⟨n, hn, rfl⟩ := List.mem_map.mp ht
      exact fitsUint32_decimalForm n (hl n hn)
    have hval : (pathComponents (joinPath l)).map decimalValue = l := by
      rw [pathComponents_joinPath, List.map_map]
      conv_rhs => rw [← List.map_id l]
      apply List.map_congr_left
      intro n _
      exact decimalValue_decimalForm n
    unfold runKeygen
    rw [parsePath_ok _ hfit, hval]

/-- C6, at a concrete input: a path with white space and empty components,
and the list `[44, 7337, 0, 4294967295]`. -/
theorem path_parsing_witness :
    (∀ t ∈ pathComponents " 44 / 7337 //0/".data, fitsUint32 t = true) ∧
    (∀ n ∈ [44, 7337, 0, 4294967295], n < 2 ^ 32) ∧
    (pathComponents " 44 / 7337 //0/".data).map decimalValue = [44, 7337, 0] ∧
    runKeygen demoLibrary [] "abc".data [] " 44 / 7337 //0/".data
        = .ok (GenerateKeyPair demoLibrary [] "abc".data []
            ((pathComponents " 44 / 7337 //0/".data).map decimalValue)) ∧
    runKeygen demoLibrary [] "abc".data [] (joinPath [44, 7337, 0, 4294967295])
        = .ok (GenerateKeyPair demoLibrary [] "abc".data [] [44, 7337, 0, 4294967295]) :=
  ⟨by decide, by decide, by decide,
   path_parsing demoLibrary [] "abc".data [] " 44 / 7337 //0/".data (by decide)
     [44, 7337, 0, 4294967295] (by decide)⟩

/-- C7 as stated fails: in `4294967296/abc` the first component that is not an
unsigned decimal integer is `abc`, but `runKeygen` fails on the component
before it, which is a decimal integer that does not fit in 32 bits, and the
error names that one. -/
theorem parse_error_names_out_of_range_component :
    firstNonDecimal "4294967296/abc".data = some "abc".data ∧
    runKeygen demoLibrary [] [] [] "4294967296/abc".data
      = .error (.invalidComponent "4294967296".data .ErrRange) := by
  decide

/-- C7, amended: when the `-path` string has a component that, after trimming,
is non-empty and is not an unsigned decimal integer that fits in 32 bits,
`runKeygen` returns a parse error that names the first such component, and
`GenerateKeyPair` is not reached. -/
theorem path_parse_error (L : Library) (entropy : List Byte) (mnemonic passphrase : GoString)
    (s tok : GoString) (h : firstOffending s = some tok) :
    ∃ cause, runKeygen L entropy mnemonic passphrase s
      = .error (.invalidComponent tok cause) := by
  obtain ⟨cause, hc⟩ := parsePath_error s tok h
  exact ⟨cause, by unfold runKeygen; rw [hc]⟩

/-- C7 amended, at a concrete input: `44/abc/0` fails naming `abc`. -/
theorem path_parse_error_witness :
    firstOffending "44/abc/0".data = some "abc".data ∧
    ∃ cause, runKeygen demoLibrary [] [] [] "44/abc/0".data
      = .error (.invalidComponent "abc".data cause) :=
  ⟨by decide, path_parse_error demoLibrary [] [] [] "44/abc/0".data "abc".data (by decide)⟩

end NetSpawner
